import Mathlib

/-!
# Verification of Bear's compilation database module

A shallow embedding of `src/compilation/database.rs` from the Bear
repository: the `Entry` record and its equality, the `DatabaseFormat`
configuration, the wire-level `GenericEntry` with its JSON
(de)serialization, and the `Database::load` / `Database::save`
orchestration.  Rust `String` values are modelled as `List Char`,
`PathBuf` values as `List Nat` (their underlying bytes on Unix), and
JSON documents as an explicit inductive value type.  File I/O is
modelled functionally: `save` produces the JSON document that would be
written, `load` consumes a JSON document.
-/

namespace Bear

/-- Model of a Rust `String`: a list of unicode scalar values. -/
abbrev Str := List Char

/-- Model of a Rust `PathBuf` on Unix: the underlying byte sequence. -/
abbrev Bytes := List Nat

/-- The single-quote character. -/
def quoteChar : Char := Char.ofNat 39

/-- The double-quote character. -/
def dquoteChar : Char := Char.ofNat 34

/-- The backslash character. -/
def bslashChar : Char := Char.ofNat 92

/-- The newline character. -/
def nlChar : Char := Char.ofNat 10

/-- The space character. -/
def spaceChar : Char := Char.ofNat 32

/-- The tab character. -/
def tabChar : Char := Char.ofNat 9

/-- The carriage-return character. -/
def crChar : Char := Char.ofNat 13

/-- The NUL character. -/
def nulChar : Char := Char.ofNat 0

/-! ## UTF-8

`PathBuf::to_str` succeeds exactly on paths whose bytes are valid
UTF-8, and `PathBuf::from(String)` yields the UTF-8 bytes of the
string.  We model both directions explicitly. -/

/-- The UTF-8 encoding of one unicode scalar value. -/
def encodeChar (c : Char) : Bytes :=
  let v := c.toNat
  if v < 0x80 then [v]
  else if v < 0x800 then [0xC0 + v / 0x40, 0x80 + v % 0x40]
  else if v < 0x10000 then
    [0xE0 + v / 0x1000, 0x80 + v / 0x40 % 0x40, 0x80 + v % 0x40]
  else
    [0xF0 + v / 0x40000, 0x80 + v / 0x1000 % 0x40, 0x80 + v / 0x40 % 0x40,
     0x80 + v % 0x40]

/-- The UTF-8 encoding of a string, as produced by `PathBuf::from`. -/
def encodeUtf8 (s : Str) : Bytes :=
  s.flatMap encodeChar

/-- Admissible second byte of a three-byte sequence, given the first. -/
def cont3Ok (b0 b1 : Nat) : Prop :=
  (b0 = 0xE0 ∧ 0xA0 ≤ b1 ∧ b1 < 0xC0) ∨
  (b0 = 0xED ∧ 0x80 ≤ b1 ∧ b1 < 0xA0) ∨
  (b0 ≠ 0xE0 ∧ b0 ≠ 0xED ∧ 0x80 ≤ b1 ∧ b1 < 0xC0)

instance (b0 b1 : Nat) : Decidable (cont3Ok b0 b1) := by
  unfold cont3Ok; infer_instance

/-- Admissible second byte of a four-byte sequence, given the first. -/
def cont4Ok (b0 b1 : Nat) : Prop :=
  (b0 = 0xF0 ∧ 0x90 ≤ b1 ∧ b1 < 0xC0) ∨
  (b0 = 0xF4 ∧ 0x80 ≤ b1 ∧ b1 < 0x90) ∨
  (b0 ≠ 0xF0 ∧ b0 ≠ 0xF4 ∧ 0x80 ≤ b1 ∧ b1 < 0xC0)

instance (b0 b1 : Nat) : Decidable (cont4Ok b0 b1) := by
  unfold cont4Ok; infer_instance

/-- Strict UTF-8 decoding, as performed by Rust's `Path::to_str`:
rejects overlong forms, surrogates, and code points above `0x10FFFF`. -/
def decodeUtf8 : Bytes → Option Str
  | [] => some []
  | b0 :: bs =>
    if b0 < 0x80 then
      (decodeUtf8 bs).map (fun s => Char.ofNat b0 :: s)
    else if b0 < 0xC2 then none
    else
      match bs with
      | [] => none
      | b1 :: bs1 =>
        if b0 < 0xE0 then
          if 0x80 ≤ b1 ∧ b1 < 0xC0 then
            (decodeUtf8 bs1).map
              (fun s => Char.ofNat ((b0 - 0xC0) * 0x40 + (b1 - 0x80)) :: s)
          else none
        else
          match bs1 with
          | [] => none
          | b2 :: bs2 =>
            if b0 < 0xF0 then
              if cont3Ok b0 b1 ∧ 0x80 ≤ b2 ∧ b2 < 0xC0 then
                (decodeUtf8 bs2).map
                  (fun s =>
                    Char.ofNat ((b0 - 0xE0) * 0x1000 + (b1 - 0x80) * 0x40 +
                      (b2 - 0x80)) :: s)
              else none
            else
              match bs2 with
              | [] => none
              | b3 :: bs3 =>
                if b0 < 0xF5 then
                  if cont4Ok b0 b1 ∧ (0x80 ≤ b2 ∧ b2 < 0xC0) ∧
                      (0x80 ≤ b3 ∧ b3 < 0xC0) then
                    (decodeUtf8 bs3).map
                      (fun s =>
                        Char.ofNat ((b0 - 0xF0) * 0x40000 +
                          (b1 - 0x80) * 0x1000 + (b2 - 0x80) * 0x40 +
                          (b3 - 0x80)) :: s)
                  else none
                else none

/-! ## Shellword codec

Modelled from the spec: the `shellwords` crate used by
`inner::from` and specified by §2/§4.3/§8 of the spec is external to the
repository.  The spec describes it as the codec that "reversibly joins
an argument list into one shell-escaped string and splits such a string
back into an argument list" under POSIX shell-quoting rules.  We model
it after the crate it names: `join` escapes every character outside
`[A-Za-z0-9_\-.,:/@]` with a backslash (a newline is instead wrapped in
single quotes, an empty word becomes a pair of single quotes) and
separates words with single spaces; `split` performs POSIX-style word
splitting honouring backslash escapes, single quotes and double quotes,
failing on an unterminated quote. -/

/-- Characters the shellword encoder leaves unescaped. -/
def isSafeChar (c : Char) : Bool :=
  c.isAlpha || c.isDigit || c == Char.ofNat 95 || c == Char.ofNat 45 ||
  c == Char.ofNat 46 || c == Char.ofNat 44 || c == Char.ofNat 58 ||
  c == Char.ofNat 47 || c == Char.ofNat 64

/-- Shellword escaping of a single character. -/
def escChar (c : Char) : Str :=
  if c = nlChar then [quoteChar, nlChar, quoteChar]
  else if isSafeChar c then [c]
  else [bslashChar, c]

/-- Shellword escaping of one word; an empty word is rendered as a pair
of single quotes. -/
def escapeWord : Str → Str
  | [] => [quoteChar, quoteChar]
  | w => w.flatMap escChar

/-- Modelled from the spec: `shellwords::join`, the encoder used by
`inner::from` when the command is stored in string form. -/
def joinChars : List Str → Str
  | [] => []
  | [w] => escapeWord w
  | w :: w2 :: ws => escapeWord w ++ spaceChar :: joinChars (w2 :: ws)

/-- Whitespace that separates shell words. -/
def isWs (c : Char) : Bool :=
  c == spaceChar || c == tabChar || c == nlChar || c == crChar ||
  c == Char.ofNat 11 || c == Char.ofNat 12

/-- Scanner mode of the shellword splitter: outside any quote, inside
single quotes, or inside double quotes. -/
inductive SwMode where
  | norm : SwMode
  | single : SwMode
  | double : SwMode
deriving DecidableEq

/-- Single pass of the shellword splitter over the input.  `cur` is the
word collected so far and `inW` records whether a word is in progress
(so that a pair of quotes yields an empty word).  Returns `none` on an
unterminated quote. -/
def splitCore : Str → SwMode → Str → Bool → Option (List Str)
  | [], .norm, cur, inW => some (if inW then [cur] else [])
  | [], .single, _, _ => none
  | [], .double, _, _ => none
  | c :: cs, .norm, cur, inW =>
    if c = quoteChar then splitCore cs .single cur true
    else if c = dquoteChar then splitCore cs .double cur true
    else if c = bslashChar then
      match cs with
      | [] => some [cur ++ [bslashChar]]
      | d :: ds => splitCore ds .norm (cur ++ [d]) true
    else if isWs c then
      if inW then (splitCore cs .norm [] false).map (fun ws => cur :: ws)
      else splitCore cs .norm [] false
    else splitCore cs .norm (cur ++ [c]) true
  | c :: cs, .single, cur, _ =>
    if c = quoteChar then splitCore cs .norm cur true
    else splitCore cs .single (cur ++ [c]) true
  | c :: cs, .double, cur, _ =>
    if c = dquoteChar then splitCore cs .norm cur true
    else if c = bslashChar then
      match cs with
      | [] => none
      | d :: ds => splitCore ds .double (cur ++ [d]) true
    else splitCore cs .double (cur ++ [c]) true

/-- Modelled from the spec: `shellwords::split`, the decoder §4.3
prescribes for turning a `StringEntry` command back into an argument
list. -/
def splitChars (s : Str) : Option (List Str) :=
  splitCore s .norm [] false

/-! ## The domain model: `Entry` and `DatabaseFormat` -/

/-- The domain record of one compilation (`pub struct Entry`). -/
structure Entry where
  directory : Bytes
  file : Bytes
  command : List Str
  output : Option Bytes
deriving DecidableEq

/-- `impl PartialEq for Entry`: equality compares `directory`, `file`
and `command` only — `output` is ignored. -/
def beqEntry (a b : Entry) : Bool :=
  decide (a.directory = b.directory) && decide (a.file = b.file) &&
    decide (a.command = b.command)

/-- The data fed to the hasher by the source's `#[derive(Hash)]` on
`Entry`: the derived implementation hashes every field in declaration
order, `output` included.  Two entries feed identical data to the
hasher exactly when this tuple agrees. -/
def entryHashData (e : Entry) : Bytes × Bytes × List Str × Option Bytes :=
  (e.directory, e.file, e.command, e.output)

/-- `pub struct DatabaseFormat`. -/
structure DatabaseFormat where
  command_as_array : Bool

/-- `DatabaseFormat::new`: the default format stores commands as
argument arrays. -/
def DatabaseFormat.new : DatabaseFormat :=
  { command_as_array := true }

/-- `DatabaseFormat::set_command_as_array`. -/
def DatabaseFormat.set_command_as_array (fmt : DatabaseFormat) (value : Bool) :
    DatabaseFormat :=
  { fmt with command_as_array := value }

/-- `DatabaseFormat::is_command_as_array`. -/
def DatabaseFormat.is_command_as_array (fmt : DatabaseFormat) : Bool :=
  fmt.command_as_array

/-- Membership in an `Entries` set, up to the `Entry` identity of the
source (`PartialEq`, which ignores `output`). -/
def entriesMem (e : Entry) (es : List Entry) : Prop :=
  ∃ x ∈ es, beqEntry e x = true

/-- Two entry collections are equal by `Entry` identity when they have
the same members up to `beqEntry`. -/
def entriesEquiv (xs ys : List Entry) : Prop :=
  ∀ e, entriesMem e xs ↔ entriesMem e ys

/-! ## JSON values and the wire record -/

/-- JSON documents, as (de)serialized by `serde_json`. -/
inductive Json where
  | null : Json
  | bool : Bool → Json
  | num : Int → Json
  | str : Str → Json
  | arr : List Json → Json
  | obj : List (Str × Json) → Json

/-- `inner::GenericEntry`: the two on-disk shapes of a record. -/
inductive GenericEntry where
  | stringEntry : Str → Str → Str → Option Str → GenericEntry
  | arrayEntry : Str → Str → List Str → Option Str → GenericEntry
deriving DecidableEq

/-- The `output` field of a wire record. -/
def genericOutput : GenericEntry → Option Str
  | .stringEntry _ _ _ o => o
  | .arrayEntry _ _ _ o => o

/-- The JSON object key `directory`. -/
def dirKey : Str := "directory".data

/-- The JSON object key `file`. -/
def fileKey : Str := "file".data

/-- The JSON object key `command`. -/
def cmdKey : Str := "command".data

/-- The JSON object key `arguments`. -/
def argsKey : Str := "arguments".data

/-- The JSON object key `output`. -/
def outKey : Str := "output".data

/-- The serialized `output` field: omitted entirely when `None`
(`#[serde(skip_serializing_if = "Option::is_none")]`). -/
def optOut : Option Str → List (Str × Json)
  | none => []
  | some s => [(outKey, Json.str s)]

/-- Serialization of a wire record.  `#[serde(untagged)]` writes the
active variant as a plain object, fields in declaration order. -/
def genericToJson : GenericEntry → Json
  | .stringEntry d f c o =>
    .obj ([(dirKey, Json.str d), (fileKey, Json.str f),
      (cmdKey, Json.str c)] ++ optOut o)
  | .arrayEntry d f a o =>
    .obj ([(dirKey, Json.str d), (fileKey, Json.str f),
      (argsKey, Json.arr (a.map Json.str))] ++ optOut o)

/-- The keys of a JSON object, in order. -/
def jsonKeys : Json → List Str
  | .obj fields => fields.map Prod.fst
  | _ => []

/-- First value bound to a key in a JSON object field list. -/
def lookupField (fields : List (Str × Json)) (k : Str) : Option Json :=
  match fields with
  | [] => none
  | (k2, v) :: rest => if k2 = k then some v else lookupField rest k

/-- Decoding of a `String` field. -/
def decodeStr : Json → Option Str
  | .str s => some s
  | _ => none

/-- Collects a list of optional values, failing if any is `none`. -/
def collectOption {α : Type} : List (Option α) → Option (List α)
  | [] => some []
  | none :: _ => none
  | some a :: rest => (collectOption rest).map (fun l => a :: l)

/-- Decoding of an `Option<String>` field: an absent key or an explicit
`null` decodes to `None`. -/
def decodeOutput : Option Json → Option (Option Str)
  | none => some none
  | some .null => some none
  | some (.str s) => some (some s)
  | some _ => none

/-- Modelled from the spec: the deserializer `serde` derives for the
`StringEntry` variant is external library code.  Per spec §3 a record
with a string-valued `command` key (and `directory`, `file`, optional
`output`) matches the string shape; unknown keys are ignored. -/
def decodeStringEntry (fields : List (Str × Json)) : Option GenericEntry :=
  match lookupField fields dirKey, lookupField fields fileKey,
      lookupField fields cmdKey with
  | some (.str d), some (.str f), some (.str c) =>
    match decodeOutput (lookupField fields outKey) with
    | some o => some (.stringEntry d f c o)
    | none => none
  | _, _, _ => none

/-- Modelled from the spec: the deserializer for the `ArrayEntry`
variant.  Per spec §3 a record with a list-valued `arguments` key
matches the array shape. -/
def decodeArrayEntry (fields : List (Str × Json)) : Option GenericEntry :=
  match lookupField fields dirKey, lookupField fields fileKey,
      lookupField fields argsKey with
  | some (.str d), some (.str f), some (.arr xs) =>
    match collectOption (xs.map decodeStr) with
    | some a =>
      match decodeOutput (lookupField fields outKey) with
      | some o => some (.arrayEntry d f a o)
      | none => none
    | none => none
  | _, _, _ => none

/-- Modelled from the spec: `#[serde(untagged)]` deserialization of
`GenericEntry`.  Per serde's documented untagged semantics the variants
are tried in declaration order — `StringEntry` first, then
`ArrayEntry` — and the first that matches the object wins; a
non-object value matches neither struct variant. -/
def decodeEntry (j : Json) : Option GenericEntry :=
  match j with
  | .obj fields =>
    match decodeStringEntry fields with
    | some g => some g
    | none => decodeArrayEntry fields
  | _ => none

/-! ## Database load and save -/

/-- The error text produced when the file content does not deserialize
as an array of wire records. -/
def deserializeErr : Str :=
  "invalid compilation database".data

/-- `inner::load`, past the file read: parse the document as a JSON
array of wire records, failing with a deserialization error when the
document is not an array or some element matches neither shape. -/
def loadGeneric (j : Json) : Except Str (List GenericEntry) :=
  match j with
  | .arr elems =>
    match collectOption (elems.map decodeEntry) with
    | some ges => .ok ges
    | none => .error deserializeErr
  | _ => .error deserializeErr

/-- `PathBuf::from(String)` on Unix: the path keeps the UTF-8 bytes of
the string. -/
def strToPath (s : Str) : Bytes :=
  encodeUtf8 s

/-- Modelled from the spec: `inner::into`, the wire-to-domain
conversion, is left `unimplemented!()` in the source.  Spec §4.3 and §9
prescribe it as the load-time inverse of `inner::from`: pass the
argument list through for `ArrayEntry`, shellword-split the command
string for `StringEntry` (failing with a conversion error on malformed
quoting), and take the path fields as-is (text to path type). -/
def into (g : GenericEntry) : Except Str Entry :=
  match g with
  | .arrayEntry d f a o =>
    .ok ⟨strToPath d, strToPath f, a, o.map strToPath⟩
  | .stringEntry d f c o =>
    match splitChars c with
    | some a => .ok ⟨strToPath d, strToPath f, a, o.map strToPath⟩
    | none => .error ("mismatched quotes in command ".data ++ c)

/-- The error of a result, if any (`Result::err`). -/
def exceptErr {ε α : Type} : Except ε α → Option ε
  | .error m => some m
  | .ok _ => none

/-- Whether a result is an error. -/
def isErr {ε α : Type} : Except ε α → Bool
  | .error _ => true
  | .ok _ => false

/-- `collect::<Result<_>>()`: collects results, short-circuiting on the
first error. -/
def collectExcept {ε α : Type} : List (Except ε α) → Except ε (List α)
  | [] => .ok []
  | .error m :: _ => .error m
  | .ok a :: rest => (collectExcept rest).map (fun l => a :: l)

/-- `Database::load`, past the file read: deserialize the wire records,
convert each to an `Entry`; if any conversion fails, recompute every
record's conversion, join the failing records' error messages with a
comma separator and fail with the combined message, returning no
entries. -/
def Database.load (j : Json) : Except Str (List Entry) :=
  match loadGeneric j with
  | .error m => .error m
  | .ok ges =>
    match collectExcept (ges.map into) with
    | .ok es => .ok es
    | .error _ =>
      .error (List.intercalate ", ".data ((ges.map into).filterMap exceptErr))

/-- A hexadecimal digit character. -/
def hexDigit (n : Nat) : Char :=
  Char.ofNat (if n < 10 then 48 + n else 87 + n)

/-- Rendering of one path byte inside a debug string: printable ASCII
bytes stand for themselves, others appear as a hex escape. -/
def byteDebug (b : Nat) : Str :=
  if 32 ≤ b ∧ b < 127 ∧ b ≠ 34 ∧ b ≠ 92 then [Char.ofNat b]
  else [bslashChar, Char.ofNat 120, hexDigit (b / 16 % 16), hexDigit (b % 16)]

/-- The `{:?}` debug rendering of a path used in the conversion error
message: the path bytes between double quotes, non-printable bytes
escaped. -/
def pathDebug (p : Bytes) : Str :=
  dquoteChar :: (p.flatMap byteDebug ++ [dquoteChar])

/-- `path_to_string` inside `inner::from`: `path.to_str()` succeeds
exactly when the path bytes are valid UTF-8; otherwise the conversion
fails with `"Failed to convert to string {:?}"` naming the path. -/
def pathToString (p : Bytes) : Except Str Str :=
  match decodeUtf8 p with
  | some s => .ok s
  | none => .error ("Failed to convert to string ".data ++ pathDebug p)

/-- `inner::from`: the domain-to-wire conversion.  Converts the paths
to text (failing on the first path that is not valid UTF-8 text), then
emits an `ArrayEntry` with the command verbatim or a `StringEntry` with
the shellword-joined command, according to the format flag. -/
def fromEntry (e : Entry) (fmt : DatabaseFormat) : Except Str GenericEntry :=
  match pathToString e.directory with
  | .error m => .error m
  | .ok d =>
    match pathToString e.file with
    | .error m => .error m
    | .ok f =>
      match (match e.output with
             | some p => (pathToString p).map (fun s => some s)
             | none => .ok none) with
      | .error m => .error m
      | .ok o =>
        if fmt.is_command_as_array then
          .ok (.arrayEntry d f e.command o)
        else
          .ok (.stringEntry d f (joinChars e.command) o)

/-- `Database::save`, modelled functionally: convert every entry to a
wire record (short-circuiting on the first failure, before any file is
opened), then produce the JSON array document that `inner::save`
writes. -/
def Database.save (es : List Entry) (fmt : DatabaseFormat) : Except Str Json :=
  match collectExcept (es.map (fun e => fromEntry e fmt)) with
  | .error m => .error m
  | .ok ges => .ok (Json.arr (ges.map genericToJson))

/-- `Database::save` together with its effect on the destination file:
the file keeps its previous content when the conversion fails, because
`inner::save` (which opens and truncates the file) only runs after
every entry has converted. -/
def Database.saveFile (es : List Entry) (fmt : DatabaseFormat)
    (oldContent : Option Json) : Option Json × Except Str Unit :=
  match Database.save es fmt with
  | .error m => (oldContent, .error m)
  | .ok j => (some j, .ok ())

/-- The hypothesis of the save/load round-trip (spec §8): every path of
the entry is the UTF-8 encoding of some text, and no path or command
token carries an embedded NUL. -/
def entryUtf8 (e : Entry) : Prop :=
  (∃ s, e.directory = encodeUtf8 s) ∧ (∃ s, e.file = encodeUtf8 s) ∧
  (∀ p, e.output = some p → ∃ s, p = encodeUtf8 s) ∧
  0 ∉ e.directory ∧ 0 ∉ e.file ∧ (∀ p, e.output = some p → 0 ∉ p) ∧
  (∀ w ∈ e.command, nulChar ∉ w)

/-- A concrete entry exercising the round-trip: quoted-space command
token, present output. -/
def entryC1 : Entry :=
  ⟨encodeUtf8 "/build".data, encodeUtf8 "/build/a b.c".data,
   ["cc".data, "-c".data, "a b.c".data],
   some (encodeUtf8 "/build/a.o".data)⟩

/-- A well-formed string record. -/
def goodRecC3 : GenericEntry :=
  .stringEntry "/build".data "/build/a.c".data "cc -c a.c".data none

/-- A record whose command has an unterminated single quote. -/
def badRecC3 : GenericEntry :=
  .stringEntry "/build".data "/build/b.c".data [quoteChar] none

/-- The two records on the wire. -/
def fileC3 : Json :=
  Json.arr [genericToJson goodRecC3, genericToJson badRecC3]

/-- An entry whose directory bytes are not valid UTF-8. -/
def entryC4 : Entry :=
  ⟨[0xFF], encodeUtf8 "/build/a.c".data, ["cc".data], none⟩

/-- The spec §8 example entry. -/
def entryC5 : Entry :=
  ⟨encodeUtf8 "/build".data, encodeUtf8 "/build/a.c".data,
   ["cc".data, "-c".data, "a.c".data], none⟩

/-- An entry with no output. -/
def entryC8 : Entry :=
  ⟨encodeUtf8 "/build".data, encodeUtf8 "/build/a.c".data,
   ["cc".data, "-c".data, "a.c".data], none⟩

/-- An object carrying both a command string and an arguments list. -/
def fieldsC10 : List (Str × Json) :=
  [(dirKey, Json.str "/build".data), (fileKey, Json.str "/build/a.c".data),
   (cmdKey, Json.str "cc -c a.c".data),
   (argsKey, Json.arr [Json.str "cc".data, Json.str "-O2".data])]

theorem char_valid_facts (c : Char) :
    c.toNat < 0x110000 ∧ (c.toNat < 0xD800 ∨ 0xDFFF < c.toNat) := by
  have h := c.valid
  rcases h with h | ⟨h1, h2⟩
  · exact ⟨Nat.lt_trans h (by decide), Or.inl h⟩
  · exact ⟨h2, Or.inr h1⟩

theorem decodeUtf8_encodeChar (c : Char) (bs : Bytes) :
    decodeUtf8 (encodeChar c ++ bs) = (decodeUtf8 bs).map (fun s => c :: s) := by
  have hv := char_valid_facts c
  have hn : Char.ofNat c.toNat = c := Char.ofNat_toNat c
  by_cases h1 : c.toNat < 0x80
  · simp only [encodeChar, if_pos h1, List.cons_append, List.nil_append]
    rw [decodeUtf8.eq_def]
    simp only []
    rw [if_pos h1, hn]
  · by_cases h2 : c.toNat < 0x800
    · simp only [encodeChar, if_neg h1, if_pos h2, List.cons_append,
        List.nil_append]
      rw [decodeUtf8.eq_def]
      simp only []
      rw [if_neg (by omega), if_neg (by omega), if_pos (by omega),
        if_pos (by omega : 0x80 ≤ 0x80 + c.toNat % 0x40 ∧
          0x80 + c.toNat % 0x40 < 0xC0)]
      have he : (0xC0 + c.toNat / 0x40 - 0xC0) * 0x40 +
          (0x80 + c.toNat % 0x40 - 0x80) = c.toNat := by omega
      rw [he, hn]
    · by_cases h3 : c.toNat < 0x10000
      · simp only [encodeChar, if_neg h1, if_neg h2, if_pos h3,
          List.cons_append, List.nil_append]
        rw [decodeUtf8.eq_def]
        simp only []
        rw [if_neg (by omega), if_neg (by omega), if_neg (by omega),
          if_pos (by omega)]
        have hc : cont3Ok (0xE0 + c.toNat / 0x1000)
            (0x80 + c.toNat / 0x40 % 0x40) := by
          by_cases he0 : c.toNat < 0x1000
          · exact Or.inl ⟨by omega, by omega, by omega⟩
          · by_cases hed : c.toNat / 0x1000 = 0xD
            · rcases hv with ⟨hlt, hs | hs⟩ <;>
                exact Or.inr (Or.inl ⟨by omega, by omega, by omega⟩)
            · exact Or.inr (Or.inr ⟨by omega, by omega, by omega, by omega⟩)
        rw [if_pos ⟨hc, by omega, by omega⟩]
        have he : (0xE0 + c.toNat / 0x1000 - 0xE0) * 0x1000 +
            (0x80 + c.toNat / 0x40 % 0x40 - 0x80) * 0x40 +
            (0x80 + c.toNat % 0x40 - 0x80) = c.toNat := by omega
        rw [he, hn]
      · simp only [encodeChar, if_neg h1, if_neg h2, if_neg h3,
          List.cons_append, List.nil_append]
        rw [decodeUtf8.eq_def]
        simp only []
        have hlt : c.toNat < 0x110000 := hv.1
        rw [if_neg (by omega), if_neg (by omega), if_neg (by omega),
          if_neg (by omega), if_pos (by omega)]
        have hc : cont4Ok (0xF0 + c.toNat / 0x40000)
            (0x80 + c.toNat / 0x1000 % 0x40) := by
          by_cases hf0 : c.toNat < 0x40000
          · exact Or.inl ⟨by omega, by omega, by omega⟩
          · by_cases hf4 : c.toNat / 0x40000 = 4
            · exact Or.inr (Or.inl ⟨by omega, by omega, by omega⟩)
            · exact Or.inr (Or.inr ⟨by omega, by omega, by omega, by omega⟩)
        rw [if_pos ⟨hc, ⟨by omega, by omega⟩, by omega, by omega⟩]
        have he : (0xF0 + c.toNat / 0x40000 - 0xF0) * 0x40000 +
            (0x80 + c.toNat / 0x1000 % 0x40 - 0x80) * 0x1000 +
            (0x80 + c.toNat / 0x40 % 0x40 - 0x80) * 0x40 +
            (0x80 + c.toNat % 0x40 - 0x80) = c.toNat := by omega
        rw [he, hn]

/-- Decoding inverts encoding: every string round-trips through its
UTF-8 bytes. -/
theorem decodeUtf8_encodeUtf8 (s : Str) : decodeUtf8 (encodeUtf8 s) = some s := by
  induction s with
  | nil => rfl
  | cons c s ih =>
    show decodeUtf8 (encodeChar c ++ encodeUtf8 s) = _
    rw [decodeUtf8_encodeChar, ih]
    rfl

theorem isSafeChar_notWs {c : Char} (h : isSafeChar c = true) : isWs c = false := by
  cases hw : isWs c with
  | false => rfl
  | true =>
    exfalso
    simp only [isWs, Bool.or_eq_true, beq_iff_eq] at hw
    rcases hw with ((((h1 | h1) | h1) | h1) | h1) | h1 <;>
      (subst h1; revert h; decide)

theorem isSafeChar_facts {c : Char} (h : isSafeChar c = true) :
    c ≠ quoteChar ∧ c ≠ dquoteChar ∧ c ≠ bslashChar ∧ isWs c = false := by
  refine ⟨?_, ?_, ?_, isSafeChar_notWs h⟩ <;>
    (intro he; subst he; revert h; decide)

theorem splitCore_safe (c : Char) (h : isSafeChar c = true) (cs : Str)
    (cur : Str) (inW : Bool) :
    splitCore (c :: cs) .norm cur inW = splitCore cs .norm (cur ++ [c]) true := by
  obtain ⟨h1, h2, h3, h4⟩ := isSafeChar_facts h
  rw [splitCore.eq_def]
  simp only []
  rw [if_neg h1, if_neg h2, if_neg h3, if_neg (by simp [h4])]

theorem splitCore_bslash (c : Char) (cs : Str) (cur : Str) (inW : Bool) :
    splitCore (bslashChar :: c :: cs) .norm cur inW =
      splitCore cs .norm (cur ++ [c]) true := by
  rw [splitCore.eq_def]
  simp only []
  rw [if_neg (by decide), if_neg (by decide), if_pos trivial]

theorem splitCore_quoted_nl (cs : Str) (cur : Str) (inW : Bool) :
    splitCore (quoteChar :: nlChar :: quoteChar :: cs) .norm cur inW =
      splitCore cs .norm (cur ++ [nlChar]) true := by
  rw [splitCore.eq_def]
  simp only []
  rw [if_pos trivial]
  rw [splitCore.eq_def]
  simp only []
  rw [if_neg (by decide)]
  rw [splitCore.eq_def]
  simp only []
  rw [if_pos trivial]

theorem splitCore_escChar (c : Char) (cs : Str) (cur : Str) (inW : Bool) :
    splitCore (escChar c ++ cs) .norm cur inW =
      splitCore cs .norm (cur ++ [c]) true := by
  by_cases h1 : c = nlChar
  · subst h1
    rw [escChar, if_pos rfl]
    exact splitCore_quoted_nl cs cur inW
  · by_cases h2 : isSafeChar c
    · rw [escChar, if_neg h1, if_pos h2]
      exact splitCore_safe c h2 cs cur inW
    · rw [escChar, if_neg h1, if_neg h2]
      exact splitCore_bslash c cs cur inW

theorem splitCore_flatMap (w : Str) (cs : Str) (cur : Str) :
    splitCore (w.flatMap escChar ++ cs) .norm cur true =
      splitCore cs .norm (cur ++ w) true := by
  induction w generalizing cur with
  | nil => simp
  | cons c w ih =>
    rw [List.flatMap_cons, List.append_assoc, splitCore_escChar, ih]
    simp

theorem splitCore_escapeWord (w : Str) (cs : Str) (cur : Str) (inW : Bool) :
    splitCore (escapeWord w ++ cs) .norm cur inW =
      splitCore cs .norm (cur ++ w) true := by
  cases w with
  | nil =>
    rw [escapeWord]
    rw [splitCore.eq_def]
    simp only [List.cons_append]
    rw [if_pos trivial]
    rw [splitCore.eq_def]
    simp only []
    rw [if_pos trivial]
    simp
  | cons c w =>
    show splitCore ((c :: w).flatMap escChar ++ cs) .norm cur inW = _
    rw [List.flatMap_cons, List.append_assoc, splitCore_escChar,
      splitCore_flatMap]
    simp

/-- The shellword codec round-trips: splitting a joined argument list
recovers the list exactly. -/
theorem splitChars_joinChars (ws : List Str) :
    splitChars (joinChars ws) = some ws := by
  rw [splitChars]
  induction ws with
  | nil => simp [joinChars, splitCore]
  | cons w ws ih =>
    cases ws with
    | nil =>
      rw [joinChars, ← List.append_nil (escapeWord w), splitCore_escapeWord]
      simp [splitCore]
    | cons w2 ws2 =>
      rw [joinChars, splitCore_escapeWord]
      rw [splitCore.eq_def]
      simp only []
      rw [if_neg (by decide), if_neg (by decide), if_neg (by decide),
        if_pos (by decide : isWs spaceChar = true)]
      simp [ih]

theorem pathToString_eq (p : Bytes) : pathToString p =
    match decodeUtf8 p with
    | some s => Except.ok s
    | none =>
      Except.error ("Failed to convert to string ".data ++ pathDebug p) :=
  rfl

/-! ## Supporting lemmas -/

theorem collectOption_map_of {α β : Type} (f : α → Option β) (g : α → β)
    (l : List α) (h : ∀ x ∈ l, f x = some (g x)) :
    collectOption (l.map f) = some (l.map g) := by
  induction l with
  | nil => rfl
  | cons x l ih =>
    rw [List.map_cons, List.map_cons, h x (by simp),
      collectOption, ih (fun y hy => h y (by simp [hy])), Option.map_some']

theorem collectOption_isSome_iff {α : Type} (l : List (Option α)) :
    (collectOption l).isSome = true ↔ ∀ x ∈ l, x.isSome = true := by
  induction l with
  | nil => simp [collectOption]
  | cons x l ih =>
    cases x with
    | none => simp [collectOption]
    | some a =>
      rw [collectOption]
      have hmap : (Option.map (fun l2 => a :: l2) (collectOption l)).isSome
          = (collectOption l).isSome := by
        cases collectOption l <;> rfl
      rw [hmap, ih]
      constructor
      · intro h y hy
        rcases List.mem_cons.mp hy with hy | hy
        · subst hy; rfl
        · exact h y hy
      · intro h y hy
        exact h y (List.mem_cons.mpr (Or.inr hy))

theorem collectExcept_ok_of {ε α β : Type} (f : α → Except ε β) (g : α → β)
    (l : List α) (h : ∀ x ∈ l, f x = .ok (g x)) :
    collectExcept (l.map f) = .ok (l.map g) := by
  induction l with
  | nil => rfl
  | cons x l ih =>
    rw [List.map_cons, List.map_cons, h x (by simp),
      collectExcept, ih (fun y hy => h y (by simp [hy])), Except.map]

theorem collectExcept_error_of_mem {ε α β : Type} (f : α → Except ε β)
    (l : List α) (x : α) (hx : x ∈ l) (he : isErr (f x) = true) :
    ∃ m, collectExcept (l.map f) = .error m ∧
      ∃ y ∈ l, f y = .error m := by
  induction l with
  | nil => cases hx
  | cons z l ih =>
    rw [List.map_cons]
    cases hz : f z with
    | error m =>
      exact ⟨m, rfl, z, by simp, hz⟩
    | ok b =>
      have hx2 : x ∈ l := by
        rcases List.mem_cons.mp hx with h | h
        · subst h; rw [hz] at he; cases he
        · exact h
      obtain ⟨m, hm, y, hy, hfy⟩ := ih hx2
      refine ⟨m, ?_, y, by simp [hy], hfy⟩
      rw [collectExcept, hm]
      rfl

theorem collectExcept_ok_mem {ε α β : Type} (f : α → Except ε β)
    (l : List α) (bs : List β) (h : collectExcept (l.map f) = .ok bs)
    (x : α) (hx : x ∈ l) : ∃ b, f x = .ok b := by
  induction l generalizing bs with
  | nil => cases hx
  | cons z l ih =>
    rw [List.map_cons] at h
    cases hz : f z with
    | error m => rw [hz] at h; cases h
    | ok b =>
      rw [hz, collectExcept] at h
      rcases List.mem_cons.mp hx with hxz | hxl
      · exact ⟨b, hxz ▸ hz⟩
      · cases hrest : collectExcept (l.map f) with
        | error m => rw [hrest] at h; cases h
        | ok bs2 => exact ih bs2 hrest hxl

theorem entriesEquiv_refl (es : List Entry) : entriesEquiv es es :=
  fun _ => Iff.rfl

theorem decodeStr_str (a : List Str) :
    collectOption (a.map (decodeStr ∘ Json.str)) = some a := by
  have h : ∀ x ∈ a, (decodeStr ∘ Json.str) x = some (id x) := by
    intro x _
    rfl
  rw [collectOption_map_of _ id a h, List.map_id]

/-- The five JSON object keys are pairwise distinct. -/
theorem keysDistinct :
    dirKey ≠ fileKey ∧ dirKey ≠ cmdKey ∧ dirKey ≠ argsKey ∧ dirKey ≠ outKey ∧
    fileKey ≠ cmdKey ∧ fileKey ≠ argsKey ∧ fileKey ≠ outKey ∧
    cmdKey ≠ argsKey ∧ cmdKey ≠ outKey ∧ argsKey ≠ outKey := by
  decide

/-- Serialization followed by untagged deserialization is the identity
on wire records. -/
theorem decodeEntry_genericToJson (g : GenericEntry) :
    decodeEntry (genericToJson g) = some g := by
  obtain ⟨k1, k2, k3, k4, k5, k6, k7, k8, k9, k10⟩ := keysDistinct
  have k8s := k8.symm
  have k9s := k9.symm
  cases g with
  | stringEntry d f c o =>
    cases o with
    | none =>
      simp [genericToJson, decodeEntry, decodeStringEntry, lookupField,
        optOut, decodeOutput, k1, k2, k4, k5, k7, k9, k9s]
    | some s =>
      simp [genericToJson, decodeEntry, decodeStringEntry, lookupField,
        optOut, decodeOutput, k1, k2, k4, k5, k7, k9, k9s]
  | arrayEntry d f a o =>
    cases o with
    | none =>
      simp [genericToJson, decodeEntry, decodeStringEntry, decodeArrayEntry,
        lookupField, optOut, decodeOutput, decodeStr_str, k1, k2, k3, k4,
        k5, k6, k7, k8s, k10]
    | some s =>
      simp [genericToJson, decodeEntry, decodeStringEntry, decodeArrayEntry,
        lookupField, optOut, decodeOutput, decodeStr_str, k1, k2, k3, k4,
        k5, k6, k7, k8s, k9s, k10]

theorem entry_eta (e : Entry) (d f : Bytes) (c : List Str) (o : Option Bytes)
    (hd : e.directory = d) (hf : e.file = f) (hc : e.command = c)
    (ho : e.output = o) : (⟨d, f, c, o⟩ : Entry) = e := by
  cases e
  cases hd
  cases hf
  cases hc
  cases ho
  rfl

/-- Under the UTF-8 hypothesis, the domain-to-wire conversion succeeds
and the (spec-modelled) wire-to-domain conversion inverts it exactly. -/
theorem fromEntry_into (e : Entry) (fmt : DatabaseFormat) (h : entryUtf8 e) :
    ∃ g, fromEntry e fmt = Except.ok g ∧ into g = Except.ok e := by
  obtain ⟨⟨sd, hd⟩, ⟨sf, hf⟩, ho, -, -, -, -⟩ := h
  have hpd : pathToString e.directory = Except.ok sd := by
    rw [hd, pathToString_eq, decodeUtf8_encodeUtf8]
  have hpf : pathToString e.file = Except.ok sf := by
    rw [hf, pathToString_eq, decodeUtf8_encodeUtf8]
  cases hout : e.output with
  | none =>
    by_cases harr : fmt.is_command_as_array
    · refine ⟨.arrayEntry sd sf e.command none, ?_, ?_⟩
      · simp [fromEntry, hpd, hpf, hout, harr]
      · exact congrArg Except.ok (entry_eta e _ _ _ _ hd hf rfl hout)
    · refine ⟨.stringEntry sd sf (joinChars e.command) none, ?_, ?_⟩
      · simp [fromEntry, hpd, hpf, hout, harr]
      · show (match splitChars (joinChars e.command) with
          | some a =>
            Except.ok ⟨strToPath sd, strToPath sf, a, Option.map strToPath none⟩
          | none =>
            Except.error ("mismatched quotes in command ".data ++
              joinChars e.command)) = Except.ok e
        rw [splitChars_joinChars]
        exact congrArg Except.ok (entry_eta e _ _ _ _ hd hf rfl hout)
  | some p =>
    obtain ⟨sp, hp⟩ := ho p hout
    have hpp : pathToString p = Except.ok sp := by
      rw [hp, pathToString_eq, decodeUtf8_encodeUtf8]
    have hout2 : e.output = some (encodeUtf8 sp) := by rw [hout, hp]
    by_cases harr : fmt.is_command_as_array
    · refine ⟨.arrayEntry sd sf e.command (some sp), ?_, ?_⟩
      · simp [fromEntry, hpd, hpf, hout, hpp, harr, Except.map]
      · exact congrArg Except.ok (entry_eta e _ _ _ _ hd hf rfl hout2)
    · refine ⟨.stringEntry sd sf (joinChars e.command) (some sp), ?_, ?_⟩
      · simp [fromEntry, hpd, hpf, hout, hpp, harr, Except.map]
      · show (match splitChars (joinChars e.command) with
          | some a =>
            Except.ok ⟨strToPath sd, strToPath sf, a,
              Option.map strToPath (some sp)⟩
          | none =>
            Except.error ("mismatched quotes in command ".data ++
              joinChars e.command)) = Except.ok e
        rw [splitChars_joinChars]
        exact congrArg Except.ok (entry_eta e _ _ _ _ hd hf rfl hout2)

theorem save_load_aux (fmt : DatabaseFormat) :
    ∀ es : List Entry,
    (∀ e ∈ es, ∃ g, fromEntry e fmt = Except.ok g ∧ into g = Except.ok e) →
    ∃ ges, collectExcept (es.map (fun e => fromEntry e fmt)) = Except.ok ges ∧
      collectExcept (ges.map into) = Except.ok es := by
  intro es
  induction es with
  | nil => exact fun _ => ⟨[], rfl, rfl⟩
  | cons e es ih =>
    intro h
    obtain ⟨g, hg1, hg2⟩ := h e (by simp)
    obtain ⟨ges, h1, h2⟩ := ih (fun x hx => h x (by simp [hx]))
    refine ⟨g :: ges, ?_, ?_⟩
    · rw [List.map_cons, hg1, collectExcept, h1]
      rfl
    · rw [List.map_cons, hg2, collectExcept, h2]
      rfl

/-- Deserializing a serialized record list yields it back. -/
theorem loadGeneric_arr_toJson (ges : List GenericEntry) :
    loadGeneric (Json.arr (ges.map genericToJson)) = Except.ok ges := by
  rw [loadGeneric, List.map_map]
  have h : collectOption (ges.map (decodeEntry ∘ genericToJson)) =
      some (ges.map id) :=
    collectOption_map_of _ id ges (fun g _ => decodeEntry_genericToJson g)
  rw [List.map_id] at h
  rw [h]

/-- Saving then loading returns exactly the entries saved, whenever
every entry converts both ways. -/
theorem save_load_exact (es : List Entry) (fmt : DatabaseFormat)
    (h : ∀ e ∈ es, ∃ g, fromEntry e fmt = Except.ok g ∧ into g = Except.ok e) :
    ∃ j, Database.save es fmt = Except.ok j ∧
      Database.load j = Except.ok es := by
  obtain ⟨ges, h1, h2⟩ := save_load_aux fmt es h
  refine ⟨Json.arr (ges.map genericToJson), ?_, ?_⟩
  · rw [Database.save, h1]
  · rw [Database.load, loadGeneric_arr_toJson]
    simp only []
    rw [h2]

theorem pathToString_error (p : Bytes) (m : Str)
    (h : pathToString p = Except.error m) :
    decodeUtf8 p = none ∧
      m = "Failed to convert to string ".data ++ pathDebug p := by
  rw [pathToString_eq] at h
  cases hdec : decodeUtf8 p with
  | some s => rw [hdec] at h; cases h
  | none =>
    rw [hdec] at h
    injection h with hm
    exact ⟨rfl, hm.symm⟩

/-- The bad-path conversion failure: if any path of the entry fails
UTF-8 decoding, `inner::from` fails with the path-encoding message of
one of the entry's paths. -/
theorem fromEntry_bad_path (e : Entry) (fmt : DatabaseFormat)
    (h : decodeUtf8 e.directory = none ∨ decodeUtf8 e.file = none ∨
      ∃ p, e.output = some p ∧ decodeUtf8 p = none) :
    ∃ p, fromEntry e fmt =
        Except.error ("Failed to convert to string ".data ++ pathDebug p) ∧
      decodeUtf8 p = none ∧
      (p = e.directory ∨ p = e.file ∨ e.output = some p) := by
  cases hd : decodeUtf8 e.directory with
  | none =>
    refine ⟨e.directory, ?_, hd, Or.inl rfl⟩
    rw [fromEntry, pathToString_eq, hd]
  | some sd =>
    cases hf2 : decodeUtf8 e.file with
    | none =>
      refine ⟨e.file, ?_, hf2, Or.inr (Or.inl rfl)⟩
      rw [fromEntry, pathToString_eq, hd]
      simp only []
      rw [pathToString_eq, hf2]
    | some sf =>
      rcases h with h | h | ⟨p, hpo, hdp⟩
      · rw [hd] at h; cases h
      · rw [hf2] at h; cases h
      · refine ⟨p, ?_, hdp, Or.inr (Or.inr hpo)⟩
        rw [fromEntry, pathToString_eq, hd]
        simp only []
        rw [pathToString_eq, hf2]
        simp only []
        rw [hpo]
        simp only []
        rw [pathToString_eq, hdp]
        rfl

/-- A conversion failure of any member aborts the whole save with one
of the path-encoding errors. -/
theorem save_error_of_mem (es : List Entry) (fmt : DatabaseFormat)
    (e : Entry) (he : e ∈ es) (m0 : Str)
    (hf : fromEntry e fmt = Except.error m0) :
    ∃ m, Database.save es fmt = Except.error m ∧
      ∃ y ∈ es, fromEntry y fmt = Except.error m := by
  obtain ⟨m, hm, y, hy, hfy⟩ :=
    collectExcept_error_of_mem (fun x => fromEntry x fmt) es e he
      (by show isErr (fromEntry e fmt) = true; rw [hf]; rfl)
  exact ⟨m, by rw [Database.save, hm], y, hy, hfy⟩

/-! ## Claim theorems -/

/-- C1: For every Entries set whose paths and command tokens are valid
UTF-8 and contain no embedded NUL, and for both values of
`command_as_array`, `Database::load` applied to the file produced by
`Database::save(entries, format)` returns an Entries set equal (by
Entry identity) to the original entries. -/
theorem save_load_roundtrip (es : List Entry) (fmt : DatabaseFormat)
    (h : ∀ e ∈ es, entryUtf8 e) :
    ∃ j out, Database.save es fmt = Except.ok j ∧
      Database.load j = Except.ok out ∧ entriesEquiv out es := by
  obtain ⟨j, h1, h2⟩ :=
    save_load_exact es fmt (fun e he => fromEntry_into e fmt (h e he))
  exact ⟨j, es, h1, h2, entriesEquiv_refl es⟩

theorem entryC1_utf8 : entryUtf8 entryC1 := by
  refine ⟨⟨"/build".data, rfl⟩, ⟨"/build/a b.c".data, rfl⟩, ?_,
    by decide, by decide, ?_, by decide⟩
  · intro p hp
    injection hp with h
    exact ⟨"/build/a.o".data, h.symm⟩
  · intro p hp
    injection hp with h
    rw [← h]
    decide

theorem save_load_roundtrip_witness :
    (∀ e ∈ [entryC1], entryUtf8 e) ∧
    ∃ j out, Database.save [entryC1] ⟨false⟩ = Except.ok j ∧
      Database.load j = Except.ok out ∧ entriesEquiv out [entryC1] := by
  have hall : ∀ e ∈ [entryC1], entryUtf8 e := by
    intro e he
    rw [List.mem_singleton] at he
    subst he
    exact entryC1_utf8
  exact ⟨hall, save_load_roundtrip [entryC1] ⟨false⟩ hall⟩

/-- C2: the source derives `Hash` over all four fields of `Entry` while
its `PartialEq` compares only `(directory, file, command)`.  Two
entries that differ only in `output` are therefore equal under the
source's equality yet feed different data to the derived hasher,
violating the consistency the spec (and Rust's `HashSet` contract)
requires; in a `HashSet` the two typically land in different buckets
and do not collapse to one member.  This theorem evaluates the code at
the failing input. -/
theorem entry_eq_hash_divergence :
    beqEntry
      ⟨encodeUtf8 "/build".data, encodeUtf8 "/build/a.c".data,
        ["cc".data], none⟩
      ⟨encodeUtf8 "/build".data, encodeUtf8 "/build/a.c".data,
        ["cc".data], some (encodeUtf8 "/build/a.o".data)⟩ = true ∧
    entryHashData
      ⟨encodeUtf8 "/build".data, encodeUtf8 "/build/a.c".data,
        ["cc".data], none⟩ ≠
    entryHashData
      ⟨encodeUtf8 "/build".data, encodeUtf8 "/build/a.c".data,
        ["cc".data], some (encodeUtf8 "/build/a.o".data)⟩ := by
  decide

/-- C3: once the wire records parse, `Database::load` either fails with
the single comma-joined message of every failing record's conversion
error (returning no entries), or — when every record converts —
returns the resulting entries. -/
theorem load_error_aggregation (j : Json) (ges : List GenericEntry)
    (h : loadGeneric j = Except.ok ges) :
    ((∃ g ∈ ges, isErr (into g) = true) →
      Database.load j = Except.error
        (List.intercalate ", ".data ((ges.map into).filterMap exceptErr))) ∧
    (∀ es, collectExcept (ges.map into) = Except.ok es →
      Database.load j = Except.ok es) := by
  constructor
  · rintro ⟨g, hg, hgerr⟩
    obtain ⟨m, hm, -⟩ := collectExcept_error_of_mem into ges g hg hgerr
    rw [Database.load, h]
    simp only []
    rw [hm]
  · intro es hok
    rw [Database.load, h]
    simp only []
    rw [hok]

theorem load_error_aggregation_witness :
    loadGeneric fileC3 = Except.ok [goodRecC3, badRecC3] ∧
    Database.load fileC3 =
      Except.error ("mismatched quotes in command ".data ++ [quoteChar]) := by
  have h : loadGeneric fileC3 = Except.ok [goodRecC3, badRecC3] := rfl
  refine ⟨h, ?_⟩
  exact (load_error_aggregation fileC3 [goodRecC3, badRecC3] h).1
    ⟨badRecC3, by decide, rfl⟩

/-- C4: when an entry's directory, file or present output path is not
valid UTF-8, the domain-to-wire conversion fails with a path-encoding
error naming one of the entry's offending paths, and `Database::save`
on a set containing the entry leaves the destination file unmodified
and returns such an error, before opening the file. -/
theorem save_path_encoding_error (e : Entry) (fmt : DatabaseFormat)
    (h : decodeUtf8 e.directory = none ∨ decodeUtf8 e.file = none ∨
      ∃ p, e.output = some p ∧ decodeUtf8 p = none) :
    (∃ p, fromEntry e fmt =
        Except.error ("Failed to convert to string ".data ++ pathDebug p) ∧
      decodeUtf8 p = none ∧
      (p = e.directory ∨ p = e.file ∨ e.output = some p)) ∧
    (∀ es old, e ∈ es →
      (Database.saveFile es fmt old).1 = old ∧
      ∃ m, (Database.saveFile es fmt old).2 = Except.error m ∧
        ∃ y ∈ es, fromEntry y fmt = Except.error m) := by
  obtain ⟨p, hp, hdp, hw⟩ := fromEntry_bad_path e fmt h
  refine ⟨⟨p, hp, hdp, hw⟩, ?_⟩
  intro es old he
  obtain ⟨m, hm, y, hy, hfy⟩ := save_error_of_mem es fmt e he _ hp
  rw [Database.saveFile, hm]
  exact ⟨rfl, m, rfl, y, hy, hfy⟩

theorem save_path_encoding_error_witness :
    (Database.saveFile [entryC4] ⟨true⟩ (some (Json.arr []))).1 =
      some (Json.arr []) ∧
    ∃ m, (Database.saveFile [entryC4] ⟨true⟩ (some (Json.arr []))).2 =
      Except.error m ∧
      ∃ y ∈ [entryC4], fromEntry y ⟨true⟩ = Except.error m :=
  (save_path_encoding_error entryC4 ⟨true⟩ (Or.inl (by decide))).2
    [entryC4] (some (Json.arr [])) (by simp)

/-- C5: for an entry with UTF-8-representable paths, `inner::from`
emits — depending on the format flag — an `ArrayEntry` carrying the
command verbatim or a `StringEntry` carrying the shellword-joined
command, with the textual path forms and the converted output. -/
theorem from_entry_encoding (e : Entry) (fmt : DatabaseFormat)
    (sd sf : Str) (so : Option Str) (hd : e.directory = encodeUtf8 sd)
    (hf : e.file = encodeUtf8 sf) (ho : e.output = so.map encodeUtf8) :
    fromEntry e fmt =
      Except.ok (if fmt.command_as_array = true then
        GenericEntry.arrayEntry sd sf e.command so
      else
        GenericEntry.stringEntry sd sf (joinChars e.command) so) := by
  have hpd : pathToString e.directory = Except.ok sd := by
    rw [hd, pathToString_eq, decodeUtf8_encodeUtf8]
  have hpf : pathToString e.file = Except.ok sf := by
    rw [hf, pathToString_eq, decodeUtf8_encodeUtf8]
  by_cases hb : fmt.command_as_array = true
  · cases so with
    | none =>
      simp [fromEntry, hpd, hpf, ho, Except.map, hb,
        DatabaseFormat.is_command_as_array]
    | some sp =>
      have hpp : pathToString (encodeUtf8 sp) = Except.ok sp := by
        rw [pathToString_eq, decodeUtf8_encodeUtf8]
      simp [fromEntry, hpd, hpf, ho, hpp, Except.map, hb,
        DatabaseFormat.is_command_as_array]
  · cases so with
    | none =>
      simp [fromEntry, hpd, hpf, ho, Except.map, hb,
        DatabaseFormat.is_command_as_array]
    | some sp =>
      have hpp : pathToString (encodeUtf8 sp) = Except.ok sp := by
        rw [pathToString_eq, decodeUtf8_encodeUtf8]
      simp [fromEntry, hpd, hpf, ho, hpp, Except.map, hb,
        DatabaseFormat.is_command_as_array]

theorem from_entry_encoding_witness :
    fromEntry entryC5 ⟨false⟩ =
      Except.ok (GenericEntry.stringEntry "/build".data "/build/a.c".data
        "cc -c a.c".data none) :=
  from_entry_encoding entryC5 ⟨false⟩ "/build".data "/build/a.c".data none
    rfl rfl rfl

/-- C6: the shellword codec round-trips: for every argument list with
no embedded NUL, splitting the joined string recovers the original
list. -/
theorem shellword_roundtrip (args : List Str)
    (h : ∀ w ∈ args, nulChar ∉ w) :
    splitChars (joinChars args) = some args :=
  splitChars_joinChars args

theorem shellword_roundtrip_witness :
    (∀ w ∈ ["cc".data, "-c".data, "a b.c".data], nulChar ∉ w) ∧
    splitChars (joinChars ["cc".data, "-c".data, "a b.c".data]) =
      some ["cc".data, "-c".data, "a b.c".data] :=
  ⟨by decide, shellword_roundtrip ["cc".data, "-c".data, "a b.c".data]
    (by decide)⟩

/-- C7: the untagged decoder accepts both wire shapes (serializing a
record in either shape and decoding it yields the record back), and
the wire-level load fails with a deserialization error exactly when
the document is not a JSON array or some element matches neither
shape. -/
theorem wire_decoder_shapes :
    (∀ g : GenericEntry, decodeEntry (genericToJson g) = some g) ∧
    (∀ j : Json, isErr (loadGeneric j) = true ↔
      ¬ ∃ elems, j = Json.arr elems ∧
        ∀ el ∈ elems, (decodeEntry el).isSome = true) := by
  refine ⟨decodeEntry_genericToJson, ?_⟩
  intro j
  cases j with
  | arr elems =>
    constructor
    · intro herr hex
      obtain ⟨elems2, heq, hall⟩ := hex
      injection heq with h2
      subst h2
      rw [loadGeneric] at herr
      cases hco : collectOption (elems.map decodeEntry) with
      | some ges =>
        rw [hco] at herr
        cases herr
      | none =>
        have hsome : (collectOption (elems.map decodeEntry)).isSome = true := by
          rw [collectOption_isSome_iff]
          intro x hx
          obtain ⟨el, hel, hx2⟩ := List.mem_map.mp hx
          rw [← hx2]
          exact hall el hel
        rw [hco] at hsome
        cases hsome
    · intro hnot
      cases hco : collectOption (elems.map decodeEntry) with
      | some ges =>
        exfalso
        apply hnot
        refine ⟨elems, rfl, ?_⟩
        intro el hel
        have hs : ∀ x ∈ elems.map decodeEntry, x.isSome = true := by
          rw [← collectOption_isSome_iff, hco]
          rfl
        exact hs (decodeEntry el) (List.mem_map_of_mem _ hel)
      | none =>
        rw [loadGeneric, hco]
        rfl
  | null =>
    exact ⟨fun _ => (by rintro ⟨e2, h2, -⟩; cases h2), fun _ => rfl⟩
  | bool b =>
    exact ⟨fun _ => (by rintro ⟨e2, h2, -⟩; cases h2), fun _ => rfl⟩
  | num n =>
    exact ⟨fun _ => (by rintro ⟨e2, h2, -⟩; cases h2), fun _ => rfl⟩
  | str s =>
    exact ⟨fun _ => (by rintro ⟨e2, h2, -⟩; cases h2), fun _ => rfl⟩
  | obj fields =>
    exact ⟨fun _ => (by rintro ⟨e2, h2, -⟩; cases h2), fun _ => rfl⟩

theorem wire_decoder_shapes_witness :
    decodeEntry (genericToJson
      (GenericEntry.arrayEntry "/build".data "/build/a.c".data
        ["cc".data] none)) =
      some (GenericEntry.arrayEntry "/build".data "/build/a.c".data
        ["cc".data] none) ∧
    (isErr (loadGeneric (Json.str "x".data)) = true ↔
      ¬ ∃ elems, Json.str "x".data = Json.arr elems ∧
        ∀ el ∈ elems, (decodeEntry el).isSome = true) :=
  ⟨wire_decoder_shapes.1 _, wire_decoder_shapes.2 _⟩

/-- C8: a wire record with absent output serializes without any
`output` key (never an explicit null); in particular an entry with no
output saved in array form produces an object with exactly the
`directory`, `file` and `arguments` keys. -/
theorem output_omitted :
    (∀ g : GenericEntry, genericOutput g = none →
      outKey ∉ jsonKeys (genericToJson g)) ∧
    (∀ (e : Entry) (g : GenericEntry), e.output = none →
      fromEntry e ⟨true⟩ = Except.ok g →
      jsonKeys (genericToJson g) = [dirKey, fileKey, argsKey]) := by
  constructor
  · intro g hg
    cases g with
    | stringEntry d f c o =>
      simp only [genericOutput] at hg
      subst hg
      simp only [genericToJson, jsonKeys, optOut, List.append_nil,
        List.map_cons, List.map_nil]
      decide
    | arrayEntry d f a o =>
      simp only [genericOutput] at hg
      subst hg
      simp only [genericToJson, jsonKeys, optOut, List.append_nil,
        List.map_cons, List.map_nil]
      decide
  · intro e g ho hg
    cases hpd : pathToString e.directory with
    | error m =>
      rw [fromEntry, hpd] at hg
      cases hg
    | ok d =>
      cases hpf : pathToString e.file with
      | error m =>
        rw [fromEntry, hpd] at hg
        simp only [] at hg
        rw [hpf] at hg
        cases hg
      | ok f =>
        rw [fromEntry, hpd] at hg
        simp only [] at hg
        rw [hpf] at hg
        simp only [] at hg
        rw [ho] at hg
        simp only [] at hg
        split at hg
        · injection hg with hg2
          subst hg2
          simp [genericToJson, jsonKeys, optOut]
        · rename_i hfalse
          exact absurd rfl hfalse

theorem output_omitted_witness :
    jsonKeys (genericToJson
      (GenericEntry.arrayEntry "/build".data "/build/a.c".data
        ["cc".data, "-c".data, "a.c".data] none)) =
      [dirKey, fileKey, argsKey] :=
  output_omitted.2 entryC8
    (GenericEntry.arrayEntry "/build".data "/build/a.c".data
      ["cc".data, "-c".data, "a.c".data] none) rfl rfl

/-- C9: loading a file whose content is the empty JSON array succeeds
and returns the empty Entries set. -/
theorem load_empty_database : Database.load (Json.arr []) = Except.ok [] :=
  rfl

/-- C10: a JSON object carrying both a string-valued `command` key and
a list-valued `arguments` key (with `directory` and `file`) decodes as
a `StringEntry`: the untagged decoder tries the string variant first,
so the command string wins and the arguments list is ignored. -/
theorem untagged_prefers_string (fields : List (Str × Json)) (d f c : Str)
    (args : List Json) (o : Option Str)
    (hd : lookupField fields dirKey = some (Json.str d))
    (hf : lookupField fields fileKey = some (Json.str f))
    (hc : lookupField fields cmdKey = some (Json.str c))
    (ha : lookupField fields argsKey = some (Json.arr args))
    (ho : decodeOutput (lookupField fields outKey) = some o) :
    decodeEntry (Json.obj fields) = some (GenericEntry.stringEntry d f c o) := by
  have hs : decodeStringEntry fields =
      some (GenericEntry.stringEntry d f c o) := by
    rw [decodeStringEntry, hd, hf, hc]
    rw [ho]
  rw [decodeEntry]
  rw [hs]

theorem untagged_prefers_string_witness :
    decodeEntry (Json.obj fieldsC10) =
      some (GenericEntry.stringEntry "/build".data "/build/a.c".data
        "cc -c a.c".data none) :=
  untagged_prefers_string fieldsC10 "/build".data "/build/a.c".data
    "cc -c a.c".data [Json.str "cc".data, Json.str "-O2".data] none
    rfl rfl rfl rfl rfl

end Bear
